import Mathlib

/-
Verification model of the testgrid updater's build-reading pipeline
(pkg/updater/read.go). Pure functions are translated directly; the
concurrent pipeline is modelled by explicit state passing, with the racy
shared counter additionally modelled as a fold over an arbitrary arrival
order of the stop signals. Go float64 millisecond timestamps are modelled
as exact integers; strings are modelled at the character level (the Go
code compares bytes, which coincides for ASCII data).
-/

namespace Updater

/-! ### Natural (numeric-aware) string ordering

Modelled from the sortorder library (an external dependency of read.go):
NaturalLess compares strings character by character, except that a maximal
digit run compares as a number (leading zeros stripped, compared by length
then lexicographically, with the count of leading zeros as tie break, a
digit comparing below any non-digit), and a string that runs out first
compares below. Each maximal run is reflected as one token and the whole
comparison is the lexicographic order on token lists. -/

abbrev Tok : Type := Nat × Nat × Nat

def isDigitChar (c : Char) : Bool := '0' ≤ c && c ≤ '9'

def digitsToNat (l : List Char) : Nat :=
  l.foldl (fun n c => n * 10 + (c.toNat - '0'.toNat)) 0

def tokenize : List Char → List Tok
  | [] => []
  | c :: rest =>
    if h : isDigitChar c then
      (0, digitsToNat ((List.takeWhile isDigitChar (c :: rest)).dropWhile (fun d => d == '0')),
          ((List.takeWhile isDigitChar (c :: rest)).takeWhile (fun d => d == '0')).length)
        :: tokenize (List.dropWhile isDigitChar (c :: rest))
    else
      (1, c.toNat, 0) :: tokenize rest
termination_by l => l.length
decreasing_by
  · simp only [List.dropWhile_cons, h, if_true, List.length_cons]
    suffices hs : ∀ l : List Char, (List.dropWhile isDigitChar l).length ≤ l.length by
      have := hs rest
      omega
    intro l
    induction l with
    | nil => simp [List.dropWhile]
    | cons a as ih =>
      rw [List.dropWhile_cons]
      split
      · exact Nat.le_trans ih (Nat.le_succ _)
      · exact Nat.le_refl _
  · simp only [List.length_cons]
    omega

def tokLt (a b : Tok) : Bool :=
  decide (a.1 < b.1 ∨ (a.1 = b.1 ∧ (a.2.1 < b.2.1 ∨ (a.2.1 = b.2.1 ∧ a.2.2 < b.2.2))))

def keyLt : List Tok → List Tok → Bool
  | [], [] => false
  | [], _ :: _ => true
  | _ :: _, [] => false
  | a :: as, b :: bs => if tokLt a b then true else if tokLt b a then false else keyLt as bs

def naturalLess (a b : String) : Bool := keyLt (tokenize a.data) (tokenize b.data)

/-! ### Columns and the resume-point estimator (hintStarted, read.go lines 38-54)

A column's Started field is a float64 of epoch milliseconds in the source;
it is modelled as an exact integer count of milliseconds. The conversion
of the maximum start time to a time value follows line 52 of the source:
seconds are the float quotient truncated toward zero, and the remainder is
computed with math.Remainder, the IEEE remainder whose quotient is rounded
to the nearest integer with ties to even. Times are modelled in
nanoseconds, as in Go's time.Time. -/

structure Column where
  started : Int
  hint : String
deriving DecidableEq

def roundHalfEvenDiv (x y : Int) : Int :=
  let q := Int.fdiv x y
  let r := x - q * y
  if 2 * r < y then q
  else if y < 2 * r then q + 1
  else if q % 2 = 0 then q else q + 1

def mathRemainder (x y : Int) : Int := x - y * roundHalfEvenDiv x y

def unixWhenNs (startedMs : Int) : Int :=
  Int.tdiv startedMs 1000 * 1000000000 + mathRemainder startedMs 1000 * 1000000

def hintLoop : List Column → String → Int → String × Int
  | [], hint, started => (hint, started)
  | c :: rest, hint, started =>
    hintLoop rest (if naturalLess hint c.hint then c.hint else hint)
      (if c.started > started then c.started else started)

def hintStarted (cols : List Column) : String × Int :=
  match cols with
  | [] => ("", unixWhenNs 0)
  | c :: rest =>
    ((hintLoop rest c.hint c.started).1, unixWhenNs (hintLoop rest c.hint c.started).2)

def gcsColumnReaderStop (oldCols : List Column) (stop : Int) : Int :=
  if (hintStarted oldCols).2 > stop then (hintStarted oldCols).2 else stop

/-! ### Name configuration (read.go lines 256-338)

The TestGroup model keeps only the configuration fields makeNameConfig
reads; the field gcsPrefixStr stands for the GcsPrefix proto field. -/

def testsName : String := "Tests name"

def jobName : String := "Job name"

structure NameElement where
  targetConfig : String := ""
  testProperty : String := ""
deriving DecidableEq

structure TestNameConfig where
  nameFormat : String := ""
  nameElements : List NameElement := []
deriving DecidableEq

structure TestGroup where
  gcsPrefixStr : String := ""
  testNameConfig : Option TestNameConfig := none
deriving DecidableEq

structure nameConfig where
  format : String
  parts : List String
  multiJob : Bool := false
deriving DecidableEq

def firstFilled : List String → String
  | [] => ""
  | s :: rest => if s == "" then firstFilled rest else s

def convertNameConfig : Option TestNameConfig → nameConfig
  | none => { format := "%s", parts := [testsName] }
  | some tnc =>
    { format := tnc.nameFormat,
      parts := tnc.nameElements.map (fun e => firstFilled [e.targetConfig, e.testProperty]) }

def ensureJobName (nc : nameConfig) : nameConfig :=
  if nc.parts.contains jobName then nc
  else { nc with format := "%s." ++ nc.format, parts := jobName :: nc.parts }

def makeNameConfig (g : TestGroup) : nameConfig :=
  let nc := convertNameConfig g.testNameConfig
  if g.gcsPrefixStr.data.contains ',' then ensureJobName { nc with multiJob := true }
  else nc

/-! ### Per-build artifact reads (readResult and readSuites, read.go lines 340-525)

The storage collaborator is out of scope, so each download's outcome is an
input of the model: a parsed value, an end-of-stream condition (io.EOF,
the absent-artifact signal), or a hard error. A suites-stage error keeps,
with its message, the path of the gcs.Error found in its chain by
errors.As, when there is one. Artifact payloads are opaque strings. A
suite file is a list of its test cases; Truncate is modelled from the
spec: a decoded suite file's case list is capped at 1000 cases, the extra
cases dropped without error (the junit decoder itself is outside the
modelled sources). -/

inductive Outcome where
  | ok (val : String)
  | absent
  | fail (msg : String)
deriving DecidableEq

structure SuiteFile where
  cases : List String
deriving DecidableEq

structure SuiteError where
  msg : String
  gcsPath : Option String
deriving DecidableEq

inductive SuitesFetch where
  | ok (files : List SuiteFile)
  | listErr (e : SuiteError)
  | downloadErr (e : SuiteError)
deriving DecidableEq

def readSuites : SuitesFetch → Except SuiteError (List SuiteFile)
  | .ok files => .ok (files.map (fun s => { cases := s.cases.take 1000 }))
  | .listErr e => .error { e with msg := "list: " ++ e.msg }
  | .downloadErr e => .error { e with msg := "download: " ++ e.msg }

def listIsPrefixOf : List Char → List Char → Bool
  | [], _ => true
  | _ :: _, [] => false
  | a :: as, b :: bs => a == b && listIsPrefixOf as bs

def trimPfx (s pfx : String) : String :=
  if listIsPrefixOf pfx.data s.data then { data := s.data.drop pfx.data.length } else s

def listLtStr : List Char → List Char → Bool
  | [], [] => false
  | [], _ :: _ => true
  | _ :: _, [] => false
  | a :: as, b :: bs => if a < b then true else if b < a then false else listLtStr as bs

def insertStr (s : String) : List String → List String
  | [] => [s]
  | t :: ts => if listLtStr t.data s.data then t :: insertStr s ts else s :: t :: ts

def sortStrings : List String → List String
  | [] => []
  | s :: ss => insertStr s (sortStrings ss)

structure BuildFetch where
  podInfo : Outcome
  started : Outcome
  finished : Outcome
  suites : SuitesFetch
deriving DecidableEq

structure GcsResult where
  podInfo : Option String := none
  started : Option String := none
  finished : Option String := none
  suites : List SuiteFile := []
  malformed : List String := []
deriving DecidableEq

def okVal : Outcome → Option String
  | .ok v => some v
  | _ => none

def softName : Outcome → String → List String
  | .absent, name => [name]
  | _, _ => []

/-- Model of readResult. The four downloads run concurrently in the source
and each hard failure cancels the others; which hard error wins the race
is schedule dependent, and the model resolves the race in the fixed order
podinfo, started, finished, suites. An end-of-stream outcome is soft: the
artifact name goes to the malformed list. A suites error whose chain holds
a gcs.Error is soft, recording the gcs path with the build path trimmed
from its front; any other suites error is hard. The malformed list is
sorted before returning. -/
def readResult (buildPath : String) (f : BuildFetch) : Except String GcsResult :=
  match f.podInfo with
  | .fail msg => .error ("podinfo: " ++ msg)
  | pod =>
    match f.started with
    | .fail msg => .error ("started: " ++ msg)
    | st =>
      match f.finished with
      | .fail msg => .error ("finished: " ++ msg)
      | fin =>
        match readSuites f.suites with
        | .error e =>
          match e.gcsPath with
          | none => .error ("suites: " ++ e.msg)
          | some p =>
            .ok { podInfo := okVal pod, started := okVal st, finished := okVal fin,
                  suites := [],
                  malformed := sortStrings (softName pod "podinfo.json" ++
                    softName st "started.json" ++ softName fin "finished.json" ++
                    [trimPfx p buildPath]) }
        | .ok suites =>
          .ok { podInfo := okVal pod, started := okVal st, finished := okVal fin,
                suites := suites,
                malformed := sortStrings (softName pod "podinfo.json" ++
                  softName st "started.json" ++ softName fin "finished.json") }

/-! ### The column pipeline (readColumns, read.go lines 87-236)

One BuildModel carries everything one worker's processing of one build
consumes: the build path, the download outcomes, and the column the
conversion stage produces for it. Modelled from the spec: convertResult
(outside the modelled sources) digests a RawBuildResult into a column
using the name configuration and group options; the model treats its
output, the column's start in milliseconds, its hint, and its possible
error, as per-build inputs. -/

structure BuildModel where
  path : String
  fetch : BuildFetch
  colStarted : Int
  colHint : String
  convertErr : Option String
deriving DecidableEq

def readBuild (b : BuildModel) : Except String Column :=
  match readResult b.path b.fetch with
  | .error e => .error ("read " ++ b.path ++ ": " ++ e)
  | .ok _ =>
    match b.convertErr with
    | some e => .error ("convert " ++ b.path ++ ": " ++ e)
    | none => .ok { started := b.colStarted, hint := b.colHint }

def readAll : List BuildModel → Except String (List Column)
  | [] => .ok []
  | b :: rest =>
    match readBuild b with
    | .error e => .error e
    | .ok c =>
      match readAll rest with
      | .error e => .error e
      | .ok cs => .ok (c :: cs)

def capBuilds (builds : List BuildModel) (maxBuilds : Nat) : List BuildModel :=
  if maxBuilds < builds.length then builds.drop (builds.length - maxBuilds) else builds

/-- Indices of the columns whose start is strictly before the stop
boundary, line 186 of the source: int64(col.Column.Started) < stop. -/
def oldIndices (cols : List Column) (stop : Int) : List Nat :=
  (List.range cols.length).filter
    (fun i => decide ((cols.getD i { started := 0, hint := "" }).started < stop))

/-- The shared maximum-valid-index counter: it starts at the build count
and every stop signal for index idx shrinks it to idx+1 when that is
smaller (read.go lines 210-212), in whatever order the detector
goroutines win the mutex. -/
def finalMaxIdx (n : Nat) (olds : List Nat) : Nat :=
  olds.foldl (fun m idx => if m > idx + 1 then idx + 1 else m) n

/-- Model of readColumns. A zero concurrency is the configuration error
(line 90). A negative concurrency passes the guard, spawns no worker, and
the producer goroutine's deferred Done then drives the WaitGroup counter
negative, a runtime panic, modelled as its own distinct error. With
positive concurrency every vended build index is processed; worker
scheduling only permutes the order in which per-build outcomes arrive,
which the model fixes to listing order (finalMaxIdx is proved insensitive
to the order of the stop signals). -/
def readColumns (builds : List BuildModel) (stopTime : Int) (maxBuilds : Nat)
    (concurrency : Int) : Except String (List Column) :=
  if concurrency = 0 then .error "zero readers"
  else if concurrency < 0 then .error "sync: negative WaitGroup counter"
  else
    match readAll (capBuilds builds maxBuilds) with
    | .error e => .error e
    | .ok cols =>
      .ok (cols.take (finalMaxIdx cols.length
        (oldIndices cols (Int.fdiv stopTime 1000000000 * 1000))))

def exceptDecEq {e a : Type} [DecidableEq e] [DecidableEq a] :
    (x y : Except e a) → Decidable (x = y)
  | .error u, .error w =>
    if h : u = w then .isTrue (by rw [h]) else .isFalse (by simp [h])
  | .error _, .ok _ => .isFalse (by simp)
  | .ok _, .error _ => .isFalse (by simp)
  | .ok u, .ok w =>
    if h : u = w then .isTrue (by rw [h]) else .isFalse (by simp [h])

instance {e a : Type} [DecidableEq e] [DecidableEq a] : DecidableEq (Except e a) :=
  exceptDecEq

/-! ### Concrete inputs used by individual properties -/

def groupWithJobPart : TestGroup :=
  { gcsPrefixStr := "a,b",
    testNameConfig := some
      { nameFormat := "%s-%s",
        nameElements :=
          [{ targetConfig := "Tests name", testProperty := "" },
           { targetConfig := "Job name", testProperty := "" }] } }

def groupPlainParts : TestGroup :=
  { gcsPrefixStr := "x,y", testNameConfig := none }

def crossPathFetch : BuildFetch :=
  { podInfo := .ok "p", started := .ok "s", finished := .ok "f",
    suites := .listErr { msg := "boom", gcsPath := some "gs://other/obj" } }

def absentStartedFetch : BuildFetch :=
  { podInfo := .ok "p", started := .absent, finished := .ok "f",
    suites := .ok [{ cases := ["case1"] }] }

def failingBuild : BuildModel :=
  { path := "gs://bucket/job/1",
    fetch := { podInfo := .ok "p", started := .fail "boom", finished := .ok "f",
               suites := .ok [] },
    colStarted := 0, colHint := "", convertErr := none }

def okBuildOld : BuildModel :=
  { path := "gs://bucket/job/1",
    fetch := { podInfo := .ok "p", started := .ok "s", finished := .ok "f",
               suites := .ok [] },
    colStarted := 500, colHint := "1", convertErr := none }

def okBuildNew : BuildModel :=
  { path := "gs://bucket/job/2",
    fetch := { podInfo := .ok "p", started := .ok "s", finished := .ok "f",
               suites := .ok [] },
    colStarted := 2000, colHint := "2", convertErr := none }

/-! ### Properties of the natural order -/

theorem tokLt_irrefl (a : Tok) : tokLt a a = false := by
  simp only [tokLt, decide_eq_false_iff_not]
  omega

theorem tokLt_trans {a b c : Tok} (h1 : tokLt a b = true) (h2 : tokLt b c = true) :
    tokLt a c = true := by
  simp only [tokLt, decide_eq_true_eq] at h1 h2 ⊢
  omega

theorem tokLt_connex {a b : Tok} (h1 : tokLt a b = false) (h2 : tokLt b a = false) :
    a = b := by
  obtain ⟨a1, a2, a3⟩ := a
  obtain ⟨b1, b2, b3⟩ := b
  simp only [tokLt, decide_eq_false_iff_not, not_or, not_and, not_lt] at h1 h2
  simp only [Prod.mk.injEq]
  omega

theorem keyLt_irrefl (l : List Tok) : keyLt l l = false := by
  induction l with
  | nil => rfl
  | cons a as ih => simp [keyLt, tokLt_irrefl, ih]

theorem keyLt_trans {a : List Tok} : ∀ {b c : List Tok},
    keyLt a b = true → keyLt b c = true → keyLt a c = true := by
  induction a with
  | nil =>
    intro b c h1 h2
    cases b with
    | nil => simp [keyLt] at h1
    | cons y ys =>
      cases c with
      | nil => simp [keyLt] at h2
      | cons z zs => rfl
  | cons x xs ih =>
    intro b c h1 h2
    cases b with
    | nil => simp [keyLt] at h1
    | cons y ys =>
      cases c with
      | nil => simp [keyLt] at h2
      | cons z zs =>
        cases hxy : tokLt x y with
        | true =>
          cases hyz : tokLt y z with
          | true =>
            have hxz := tokLt_trans hxy hyz
            simp [keyLt, hxz]
          | false =>
            cases hzy : tokLt z y with
            | true => simp [keyLt, hyz, hzy] at h2
            | false =>
              have hyzeq : y = z := tokLt_connex hyz hzy
              subst hyzeq
              simp [keyLt, hxy]
        | false =>
          cases hyx : tokLt y x with
          | true => simp [keyLt, hxy, hyx] at h1
          | false =>
            have hxyeq : x = y := tokLt_connex hxy hyx
            subst hxyeq
            simp only [keyLt, hxy, Bool.false_eq_true, if_false] at h1
            cases hxz : tokLt x z with
            | true => simp [keyLt, hxz]
            | false =>
              cases hzx : tokLt z x with
              | true => simp [keyLt, hxz, hzx] at h2
              | false =>
                simp only [keyLt, hxz, hzx, Bool.false_eq_true, if_false] at h2 ⊢
                exact ih h1 h2

theorem keyLt_connex {a : List Tok} : ∀ {b : List Tok},
    keyLt a b = false → keyLt b a = false → a = b := by
  induction a with
  | nil =>
    intro b h1 _
    cases b with
    | nil => rfl
    | cons y ys => simp [keyLt] at h1
  | cons x xs ih =>
    intro b h1 h2
    cases b with
    | nil => simp [keyLt] at h2
    | cons y ys =>
      cases hxy : tokLt x y with
      | true => simp [keyLt, hxy] at h1
      | false =>
        cases hyx : tokLt y x with
        | true => simp [keyLt, hyx] at h2
        | false =>
          have hx : x = y := tokLt_connex hxy hyx
          subst hx
          simp only [keyLt, hxy, Bool.false_eq_true, if_false] at h1 h2
          rw [ih h1 h2]

theorem naturalLess_irrefl (a : String) : naturalLess a a = false :=
  keyLt_irrefl _

theorem naturalLess_trans {a b c : String} (h1 : naturalLess a b = true)
    (h2 : naturalLess b c = true) : naturalLess a c = true :=
  keyLt_trans h1 h2

theorem naturalLess_neg_trans {a b c : String} (h1 : naturalLess a b = false)
    (h2 : naturalLess b c = false) : naturalLess a c = false := by
  by_contra h
  have hac : keyLt (tokenize a.data) (tokenize c.data) = true := by
    simpa [naturalLess] using h
  by_cases hba : keyLt (tokenize b.data) (tokenize a.data) = true
  · have : keyLt (tokenize b.data) (tokenize c.data) = true := keyLt_trans hba hac
    simp [naturalLess, this] at h2
  · have heq : tokenize a.data = tokenize b.data :=
      keyLt_connex (by simpa [naturalLess] using h1) (by simpa using hba)
    rw [heq] at hac
    simp [naturalLess, hac] at h2

theorem tokenize_eq_nil_iff {l : List Char} : tokenize l = [] ↔ l = [] := by
  cases l with
  | nil => simp [tokenize]
  | cons c rest =>
    constructor
    · intro h
      simp only [tokenize] at h
      split at h <;> simp_all
    · intro h
      simp at h

theorem naturalLess_empty_left {s : String} (h : naturalLess "" s = false) : s = "" := by
  have hnil : tokenize ("" : String).data = [] := tokenize_eq_nil_iff.mpr rfl
  rw [naturalLess, hnil] at h
  cases hs : tokenize s.data with
  | nil =>
    have hd : s.data = [] := tokenize_eq_nil_iff.mp hs
    cases s
    simp_all
  | cons t ts => rw [hs] at h; simp [keyLt] at h


/-! ### Properties of the resume-point estimator -/

theorem hintLoop_fst_mem : ∀ (rest : List Column) (h : String) (s : Int),
    (hintLoop rest h s).1 = h ∨ (hintLoop rest h s).1 ∈ rest.map Column.hint := by
  intro rest
  induction rest with
  | nil => intro h s; left; rfl
  | cons c cs ih =>
    intro h s
    rw [hintLoop]
    rcases ih (if naturalLess h c.hint then c.hint else h)
      (if c.started > s then c.started else s) with hl | hr
    · rw [hl]
      by_cases hc : naturalLess h c.hint = true
      · right
        simp [hc]
      · left
        simp only [Bool.not_eq_true] at hc
        simp [hc]
    · right
      simp [hr]

theorem hintLoop_fst_ub : ∀ (rest : List Column) (h : String) (s : Int),
    naturalLess (hintLoop rest h s).1 h = false ∧
    ∀ c ∈ rest, naturalLess (hintLoop rest h s).1 c.hint = false := by
  intro rest
  induction rest with
  | nil =>
    intro h s
    exact ⟨naturalLess_irrefl h, by simp⟩
  | cons c cs ih =>
    intro h s
    rw [hintLoop]
    obtain ⟨ih1, ih2⟩ := ih (if naturalLess h c.hint then c.hint else h)
      (if c.started > s then c.started else s)
    by_cases hc : naturalLess h c.hint = true
    · simp only [hc, if_true] at ih1 ih2
      have hRh : naturalLess (hintLoop cs c.hint (if c.started > s then c.started else s)).1 h
          = false := by
        cases hRh : naturalLess (hintLoop cs c.hint
            (if c.started > s then c.started else s)).1 h with
        | false => rfl
        | true =>
          have := naturalLess_trans hRh hc
          rw [this] at ih1
          exact absurd ih1 (by simp)
      refine ⟨by simp [hc, hRh], ?_⟩
      intro d hd
      rcases List.mem_cons.mp hd with hdc | hdm
      · subst hdc
        simpa [hc] using ih1
      · simpa [hc] using ih2 d hdm
    · simp only [Bool.not_eq_true] at hc
      simp only [hc, Bool.false_eq_true, if_false] at ih1 ih2
      refine ⟨by simp [hc, ih1], ?_⟩
      intro d hd
      rcases List.mem_cons.mp hd with hdc | hdm
      · subst hdc
        simpa [hc] using naturalLess_neg_trans ih1 hc
      · simpa [hc] using ih2 d hdm

theorem hintLoop_fst_all_empty : ∀ (rest : List Column) (s : Int),
    (∀ c ∈ rest, c.hint = "") → (hintLoop rest "" s).1 = "" := by
  intro rest
  induction rest with
  | nil => intro s _; rfl
  | cons c cs ih =>
    intro s hall
    rw [hintLoop]
    have hc : c.hint = "" := hall c (by simp)
    rw [hc, naturalLess_irrefl]
    simpa using ih _ (fun d hd => hall d (by simp [hd]))

theorem hintLoop_snd_max : ∀ (rest : List Column) (h : String) (s : Int),
    s ≤ (hintLoop rest h s).2 ∧ ∀ c ∈ rest, c.started ≤ (hintLoop rest h s).2 := by
  intro rest
  induction rest with
  | nil => intro h s; exact ⟨le_refl s, by simp⟩
  | cons c cs ih =>
    intro h s
    rw [hintLoop]
    obtain ⟨ih1, ih2⟩ := ih (if naturalLess h c.hint then c.hint else h)
      (if c.started > s then c.started else s)
    constructor
    · refine le_trans ?_ ih1
      split <;> omega
    · intro d hd
      rcases List.mem_cons.mp hd with hdc | hdm
      · subst hdc
        refine le_trans ?_ ih1
        split <;> omega
      · exact ih2 d hdm

/-- C3 counterexample: a nonempty column list whose single hint is the
empty string makes hintStarted return the empty hint, so the returned
hint is not empty exactly when the input is nonempty. -/
theorem hintStarted_empty_hint_cex :
    (hintStarted [{ started := 5, hint := "" }]).1 = "" ∧
    ([({ started := 5, hint := "" } : Column)] ≠ ([] : List Column)) := by
  constructor
  · rfl
  · simp

/-- C3 (amended): hintStarted returns the natural-order maximum of the
hints of the input columns, one of the input hints whenever the input is
nonempty and no input hint naturally above it; the returned hint is empty
exactly when every input hint is empty (in particular when the input is
empty). -/
theorem hintStarted_natural_max (cols : List Column) :
    (cols = [] → (hintStarted cols).1 = "") ∧
    (cols ≠ [] → (hintStarted cols).1 ∈ cols.map Column.hint) ∧
    (∀ c ∈ cols, naturalLess (hintStarted cols).1 c.hint = false) ∧
    ((hintStarted cols).1 = "" ↔ ∀ c ∈ cols, c.hint = "") := by
  cases cols with
  | nil =>
    refine ⟨fun _ => rfl, fun hne => absurd rfl hne, by simp, by simp [hintStarted]⟩
  | cons c rest =>
    have hmem := hintLoop_fst_mem rest c.hint c.started
    have hub := hintLoop_fst_ub rest c.hint c.started
    refine ⟨fun hco => by simp at hco, fun _ => ?_, ?_, ?_⟩
    · rcases hmem with hl | hr
      · simp [hintStarted, hl]
      · simp only [hintStarted, List.map_cons, List.mem_cons]
        right
        exact hr
    · intro d hd
      rcases List.mem_cons.mp hd with hdc | hdm
      · subst hdc
        exact hub.1
      · exact hub.2 d hdm
    · constructor
      · intro hres d hd
        simp only [hintStarted] at hres
        rcases List.mem_cons.mp hd with hdc | hdm
        · subst hdc
          have := hub.1
          rw [hres] at this
          exact naturalLess_empty_left this
        · have := hub.2 d hdm
          rw [hres] at this
          exact naturalLess_empty_left this
      · intro hall
        have hc : c.hint = "" := hall c (by simp)
        have : (hintLoop rest c.hint c.started).1 = "" := by
          rw [hc]
          exact hintLoop_fst_all_empty rest c.started (fun d hd => hall d (by simp [hd]))
        simpa [hintStarted] using this

/-- C8: the stop boundary actually used by a run is the caller's stop
unless the computed maximum start time over the previous columns (the
hintStarted conversion of the raw millisecond maximum) is strictly later,
in which case the boundary is advanced to it; the result is never below
the caller's stop. -/
theorem gcsColumnReaderStop_advances (oldCols : List Column) (stop : Int) :
    stop ≤ gcsColumnReaderStop oldCols stop ∧
    gcsColumnReaderStop oldCols stop =
      (if (hintStarted oldCols).2 > stop then (hintStarted oldCols).2 else stop) ∧
    ((hintStarted oldCols).2 > stop →
      gcsColumnReaderStop oldCols stop = (hintStarted oldCols).2) ∧
    ((hintStarted oldCols).2 ≤ stop → gcsColumnReaderStop oldCols stop = stop) ∧
    (∀ c0 rest, oldCols = c0 :: rest →
      (hintStarted oldCols).2 = unixWhenNs (hintLoop rest c0.hint c0.started).2 ∧
      ∀ c ∈ oldCols, c.started ≤ (hintLoop rest c0.hint c0.started).2) := by
  refine ⟨?_, ?_, ?_, ?_, ?_⟩
  · rw [gcsColumnReaderStop]
    split <;> omega
  · rfl
  · intro h
    rw [gcsColumnReaderStop, if_pos h]
  · intro h
    rw [gcsColumnReaderStop, if_neg (by omega)]
  · intro c0 rest hco
    subst hco
    refine ⟨rfl, ?_⟩
    intro c hc
    have hmax := hintLoop_snd_max rest c0.hint c0.started
    rcases List.mem_cons.mp hc with hdc | hdm
    · subst hdc
      exact hmax.1
    · exact hmax.2 c hdm

/-! ### Properties of the name configuration -/

theorem ensureJobName_mem (nc : nameConfig) (h : jobName ∈ nc.parts) :
    ensureJobName nc = nc := by
  rw [ensureJobName, if_pos (by simpa using h)]

theorem ensureJobName_not_mem (nc : nameConfig) (h : jobName ∉ nc.parts) :
    ensureJobName nc =
      { nc with format := "%s." ++ nc.format, parts := jobName :: nc.parts } := by
  rw [ensureJobName, if_neg (by simpa using h)]

/-- C4 counterexample: a group whose storage prefix holds a comma but
whose declared parts already contain the job name keeps its declared
parts and format unchanged: the job name is not moved to the front and
the format is not prefixed with the job-name slot. -/
theorem makeNameConfig_present_part_cex :
    makeNameConfig groupWithJobPart =
      { format := "%s-%s", parts := [testsName, jobName], multiJob := true } ∧
    ([testsName, jobName].head? ≠ some jobName) ∧
    ("%s-%s" ≠ "%s." ++ "%s-%s") := by
  refine ⟨by decide, by decide, by decide⟩

/-- C4 (amended): for a group whose storage prefix contains a comma,
makeNameConfig marks the config multi-job and guarantees the job-name
part is present; when the declared parts lack the job name it is
prepended and the format gains the job slot once, and when the job name
is already among the declared parts both parts and format are left
unchanged, so the slot is never duplicated. -/
theorem makeNameConfig_multi_job (g : TestGroup)
    (h : g.gcsPrefixStr.data.contains ',' = true) :
    (makeNameConfig g).multiJob = true ∧
    jobName ∈ (makeNameConfig g).parts ∧
    (jobName ∉ (convertNameConfig g.testNameConfig).parts →
      (makeNameConfig g).parts = jobName :: (convertNameConfig g.testNameConfig).parts ∧
      (makeNameConfig g).format = "%s." ++ (convertNameConfig g.testNameConfig).format) ∧
    (jobName ∈ (convertNameConfig g.testNameConfig).parts →
      (makeNameConfig g).parts = (convertNameConfig g.testNameConfig).parts ∧
      (makeNameConfig g).format = (convertNameConfig g.testNameConfig).format) := by
  have hmk : makeNameConfig g =
      ensureJobName { convertNameConfig g.testNameConfig with multiJob := true } := by
    rw [makeNameConfig]
    simp only [h, if_true]
  by_cases hj : jobName ∈ (convertNameConfig g.testNameConfig).parts
  · have he : ensureJobName { convertNameConfig g.testNameConfig with multiJob := true } =
        { convertNameConfig g.testNameConfig with multiJob := true } :=
      ensureJobName_mem _ hj
    rw [hmk, he]
    exact ⟨rfl, hj, fun hne => absurd hj hne, fun _ => ⟨rfl, rfl⟩⟩
  · have he := ensureJobName_not_mem
      { convertNameConfig g.testNameConfig with multiJob := true } hj
    rw [hmk, he]
    exact ⟨rfl, by exact List.mem_cons_self _ _, fun _ => ⟨rfl, rfl⟩,
      fun hmem => absurd hmem hj⟩

/-! ### Properties of the per-build reads -/

theorem mem_insertStr (a s : String) : ∀ l : List String,
    a ∈ insertStr s l ↔ a = s ∨ a ∈ l := by
  intro l
  induction l with
  | nil => simp [insertStr]
  | cons t ts ih =>
    rw [insertStr]
    split
    · simp only [List.mem_cons, ih]
      tauto
    · simp only [List.mem_cons]

theorem mem_sortStrings (a : String) : ∀ l : List String,
    a ∈ sortStrings l ↔ a ∈ l := by
  intro l
  induction l with
  | nil => simp [sortStrings]
  | cons s ss ih =>
    rw [sortStrings, mem_insertStr]
    simp only [List.mem_cons, ih]

/-- Reduction of readResult when none of the three metadata downloads is a
hard failure: the outcome is decided by the suites stage alone. -/
theorem readResult_no_hard (bp : String) (pod st fin : Outcome) (su : SuitesFetch)
    (hp : ∀ m, pod ≠ Outcome.fail m) (hs : ∀ m, st ≠ Outcome.fail m)
    (hf : ∀ m, fin ≠ Outcome.fail m) :
    readResult bp ⟨pod, st, fin, su⟩ =
      (match readSuites su with
       | .error e =>
         match e.gcsPath with
         | none => .error ("suites: " ++ e.msg)
         | some p =>
           .ok { podInfo := okVal pod, started := okVal st, finished := okVal fin,
                 suites := [],
                 malformed := sortStrings (softName pod "podinfo.json" ++
                   softName st "started.json" ++ softName fin "finished.json" ++
                   [trimPfx p bp]) }
       | .ok suites =>
         .ok { podInfo := okVal pod, started := okVal st, finished := okVal fin,
               suites := suites,
               malformed := sortStrings (softName pod "podinfo.json" ++
                 softName st "started.json" ++ softName fin "finished.json") }) := by
  cases pod with
  | fail m => exact absurd rfl (hp m)
  | ok v =>
    cases st with
    | fail m => exact absurd rfl (hs m)
    | ok w =>
      cases fin with
      | fail m => exact absurd rfl (hf m)
      | ok u => rfl
      | absent => rfl
    | absent =>
      cases fin with
      | fail m => exact absurd rfl (hf m)
      | ok u => rfl
      | absent => rfl
  | absent =>
    cases st with
    | fail m => exact absurd rfl (hs m)
    | ok w =>
      cases fin with
      | fail m => exact absurd rfl (hf m)
      | ok u => rfl
      | absent => rfl
    | absent =>
      cases fin with
      | fail m => exact absurd rfl (hf m)
      | ok u => rfl
      | absent => rfl

/-- A hard failure of the pod-info, started or finished download makes
readResult return an error. -/
theorem readResult_hard_of_fail (bp : String) (f : BuildFetch)
    (hmsg : ∃ m, f.podInfo = Outcome.fail m ∨ f.started = Outcome.fail m ∨
      f.finished = Outcome.fail m) :
    ∃ e, readResult bp f = Except.error e := by
  obtain ⟨pod, st, fin, su⟩ := f
  obtain ⟨m, hm⟩ := hmsg
  cases pod <;> cases st <;> cases fin <;>
    first
      | exact ⟨_, rfl⟩
      | (rcases hm with h | h | h <;> simp_all)

/-- C2 counterexample: a suites storage error whose gcs path lies outside
the build's own path is still treated as soft: readResult succeeds and
records the full, untrimmed path in the malformed list instead of
aborting the build read. -/
theorem readResult_cross_path_soft_cex :
    readResult "gs://bucket/b/1/" crossPathFetch =
      Except.ok { podInfo := some "p", started := some "s", finished := some "f",
                  suites := [], malformed := ["gs://other/obj"] } ∧
    listIsPrefixOf "gs://bucket/b/1/".data "gs://other/obj".data = false := by
  refine ⟨by decide, by decide⟩

/-- C2 (amended): with no hard metadata failure, a suites-download error
carrying a gcs.Error in its chain is always soft, whatever its path: the
build read succeeds and the path, trimmed of the build path when that is
its front, is recorded as malformed; a suites error without a gcs.Error
is the only hard suites failure and aborts the build read. -/
theorem readResult_suites_gcs_soft (bp : String) (f : BuildFetch)
    (hp : ∀ m, f.podInfo ≠ Outcome.fail m) (hs : ∀ m, f.started ≠ Outcome.fail m)
    (hf : ∀ m, f.finished ≠ Outcome.fail m) :
    (∀ e p, readSuites f.suites = Except.error e → e.gcsPath = some p →
      ∃ r, readResult bp f = Except.ok r ∧ trimPfx p bp ∈ r.malformed) ∧
    (∀ e, readSuites f.suites = Except.error e → e.gcsPath = none →
      readResult bp f = Except.error ("suites: " ++ e.msg)) := by
  obtain ⟨pod, st, fin, su⟩ := f
  rw [readResult_no_hard bp pod st fin su hp hs hf]
  constructor
  · intro e p he hpath
    rw [he]
    obtain ⟨msg, gp⟩ := e
    simp only at hpath
    subst hpath
    refine ⟨_, rfl, ?_⟩
    simp only [mem_sortStrings]
    simp
  · intro e he hpath
    rw [he]
    obtain ⟨msg, gp⟩ := e
    simp only at hpath
    subst hpath
    rfl

/-- C6: a build whose started.json is absent while finished.json and the
suites are present still yields a successful result with started.json in
the malformed list, a successfully converted column, and more generally an
absent artifact never fails a build read. -/
theorem readResult_absent_started_soft (bp : String) (pod : Outcome) (v : String)
    (files : List SuiteFile) (hp : ∀ m, pod ≠ Outcome.fail m) :
    (∃ r, readResult bp ⟨pod, Outcome.absent, Outcome.ok v, SuitesFetch.ok files⟩ =
        Except.ok r ∧
      "started.json" ∈ r.malformed ∧ r.finished = some v ∧
      r.suites = files.map (fun s => { cases := s.cases.take 1000 })) ∧
    (∀ b : BuildModel,
      b.fetch = ⟨pod, Outcome.absent, Outcome.ok v, SuitesFetch.ok files⟩ →
      b.convertErr = none →
      readBuild b = Except.ok { started := b.colStarted, hint := b.colHint }) ∧
    (∀ pod2 st2 fin2 su2, (∀ m, pod2 ≠ Outcome.fail m) → (∀ m, st2 ≠ Outcome.fail m) →
      (∀ m, fin2 ≠ Outcome.fail m) → (∀ e, readSuites su2 ≠ Except.error e) →
      ∃ r2, readResult bp ⟨pod2, st2, fin2, su2⟩ = Except.ok r2) := by
  have habs : ∀ m, Outcome.absent ≠ Outcome.fail m := fun m h => Outcome.noConfusion h
  have hokv : ∀ m, Outcome.ok v ≠ Outcome.fail m := fun m h => Outcome.noConfusion h
  refine ⟨?_, ?_, ?_⟩
  · rw [readResult_no_hard bp pod Outcome.absent (Outcome.ok v)
      (SuitesFetch.ok files) hp habs hokv]
    refine ⟨_, rfl, ?_, rfl, rfl⟩
    simp only [mem_sortStrings, softName]
    simp
  · intro b hbf hce
    rw [readBuild, hbf, hce,
      readResult_no_hard b.path pod Outcome.absent (Outcome.ok v)
        (SuitesFetch.ok files) hp habs hokv]
    rfl
  · intro pod2 st2 fin2 su2 hp2 hs2 hf2 hsu2
    rw [readResult_no_hard bp pod2 st2 fin2 su2 hp2 hs2 hf2]
    cases hsu : readSuites su2 with
    | error e => exact absurd hsu (hsu2 e)
    | ok suites => exact ⟨_, rfl⟩

/-! ### Properties of the column pipeline -/

theorem stepEqMin (m i : Nat) : (if m > i + 1 then i + 1 else m) = min m (i + 1) := by
  split <;> omega

theorem finalMaxIdx_eq_foldlMin (n : Nat) (l : List Nat) :
    finalMaxIdx n l = l.foldl (fun m i => min m (i + 1)) n := by
  have hf : (fun (m idx : Nat) => if m > idx + 1 then idx + 1 else m) =
      fun m i => min m (i + 1) := by
    funext m i
    exact stepEqMin m i
  rw [finalMaxIdx, hf]

theorem foldlMin_shift : ∀ (l : List Nat) (a c : Nat),
    l.foldl (fun m i => min m (i + 1)) (min a c) =
      min c (l.foldl (fun m i => min m (i + 1)) a) := by
  intro l
  induction l with
  | nil => intro a c; exact Nat.min_comm a c
  | cons i t ih =>
    intro a c
    simp only [List.foldl_cons]
    have h : min (min a c) (i + 1) = min (min a (i + 1)) c := by omega
    rw [h, ih]

theorem finalMaxIdx_nil (n : Nat) : finalMaxIdx n [] = n := rfl

theorem finalMaxIdx_cons (n i : Nat) (l : List Nat) :
    finalMaxIdx n (i :: l) = min (i + 1) (finalMaxIdx n l) := by
  rw [finalMaxIdx_eq_foldlMin, finalMaxIdx_eq_foldlMin]
  simp only [List.foldl_cons]
  exact foldlMin_shift l n (i + 1)

theorem finalMaxIdx_perm (n : Nat) {l l2 : List Nat} (h : l.Perm l2) :
    finalMaxIdx n l = finalMaxIdx n l2 := by
  induction h with
  | nil => rfl
  | cons x _ ih => rw [finalMaxIdx_cons, finalMaxIdx_cons, ih]
  | swap x y t =>
    rw [finalMaxIdx_cons, finalMaxIdx_cons, finalMaxIdx_cons, finalMaxIdx_cons]
    omega
  | trans _ _ ih1 ih2 => rw [ih1, ih2]

theorem finalMaxIdx_le_mem (n : Nat) : ∀ (l : List Nat) (i : Nat), i ∈ l →
    finalMaxIdx n l ≤ i + 1 := by
  intro l
  induction l with
  | nil => intro i hi; simp at hi
  | cons j t ih =>
    intro i hi
    rw [finalMaxIdx_cons]
    rcases List.mem_cons.mp hi with h | h
    · subst h
      omega
    · have := ih i h
      omega

theorem finalMaxIdx_mem (n : Nat) : ∀ l : List Nat, l ≠ [] → (∀ i ∈ l, i + 1 ≤ n) →
    ∃ i ∈ l, finalMaxIdx n l = i + 1 ∧ ∀ j ∈ l, i ≤ j := by
  intro l
  induction l with
  | nil => intro h _; exact absurd rfl h
  | cons i t ih =>
    intro _ hb
    by_cases ht : t = []
    · subst ht
      refine ⟨i, by simp, ?_, ?_⟩
      · rw [finalMaxIdx_cons, finalMaxIdx_nil]
        have := hb i (by simp)
        omega
      · intro j hj
        simp at hj
        omega
    · obtain ⟨k, hkm, hke, hkmin⟩ := ih ht (fun x hx => hb x (by simp [hx]))
      by_cases hik : i ≤ k
      · refine ⟨i, by simp, ?_, ?_⟩
        · rw [finalMaxIdx_cons, hke]
          omega
        · intro j hj
          rcases List.mem_cons.mp hj with h | h
          · omega
          · have := hkmin j h
            omega
      · refine ⟨k, by simp [hkm], ?_, ?_⟩
        · rw [finalMaxIdx_cons, hke]
          omega
        · intro j hj
          rcases List.mem_cons.mp hj with h | h
          · omega
          · exact hkmin j h

theorem oldIndices_lt (cols : List Column) (stop : Int) :
    ∀ i ∈ oldIndices cols stop, i < cols.length := by
  intro i hi
  rw [oldIndices] at hi
  exact List.mem_range.mp (List.mem_filter.mp hi).1

theorem readBuild_error_of_readResult (b : BuildModel)
    (h : ∃ e, readResult b.path b.fetch = Except.error e) :
    ∃ e, readBuild b = Except.error e := by
  obtain ⟨e, he⟩ := h
  exact ⟨"read " ++ b.path ++ ": " ++ e, by rw [readBuild, he]⟩

theorem readAll_error_of_mem : ∀ {l : List BuildModel} {b : BuildModel}, b ∈ l →
    (∃ e, readBuild b = Except.error e) → ∃ e, readAll l = Except.error e := by
  intro l
  induction l with
  | nil => intro b hb _; simp at hb
  | cons x xs ih =>
    intro b hb hberr
    rcases List.mem_cons.mp hb with h | h
    · subst h
      obtain ⟨e, he⟩ := hberr
      exact ⟨e, by rw [readAll, he]⟩
    · cases hx : readBuild x with
      | error e => exact ⟨e, by rw [readAll, hx]⟩
      | ok c =>
        obtain ⟨e, he⟩ := ih h hberr
        refine ⟨e, ?_⟩
        rw [readAll, hx, he]

theorem readColumns_pos (builds : List BuildModel) (stopTime : Int) (maxBuilds : Nat)
    (concurrency : Int) (hc : 0 < concurrency) :
    readColumns builds stopTime maxBuilds concurrency =
      (match readAll (capBuilds builds maxBuilds) with
       | .error e => .error e
       | .ok cols =>
         .ok (cols.take (finalMaxIdx cols.length
           (oldIndices cols (Int.fdiv stopTime 1000000000 * 1000))))) := by
  rw [readColumns, if_neg (by omega), if_neg (by omega)]

/-- C9: zero configured concurrency is a configuration error: readColumns
fails immediately with the zero-readers error whatever its other inputs,
before touching the build list. -/
theorem readColumns_zero_readers (builds : List BuildModel) (stopTime : Int)
    (maxBuilds : Nat) :
    readColumns builds stopTime maxBuilds 0 = Except.error "zero readers" := by
  rw [readColumns, if_pos rfl]

/-- C10: a strictly negative concurrency is not rejected by the
configuration guard, which tests equality with zero only: the run
proceeds past the check (and then dies on the negative WaitGroup counter,
a distinct runtime panic, not the configuration error). -/
theorem readColumns_negative_passes_guard (builds : List BuildModel) (stopTime : Int)
    (maxBuilds : Nat) (concurrency : Int) (hc : concurrency < 0) :
    readColumns builds stopTime maxBuilds concurrency ≠ Except.error "zero readers" ∧
    readColumns builds stopTime maxBuilds concurrency =
      Except.error "sync: negative WaitGroup counter" := by
  rw [readColumns, if_neg (by omega), if_pos hc]
  refine ⟨?_, rfl⟩
  intro h
  have := Except.error.inj h
  simp at this

theorem readColumns_negative_witness :
    readColumns [] 0 50 (-1) ≠ Except.error "zero readers" ∧
    readColumns [] 0 50 (-1) = Except.error "sync: negative WaitGroup counter" :=
  readColumns_negative_passes_guard [] 0 50 (-1) (by omega)

/-- C5: a hard failure (any non-absence error) of the pod-info, started
or finished download of any capped build makes readResult fail for that
build and the whole pipeline run return an error, so no column list is
produced. -/
theorem readColumns_hard_error_aborts (builds : List BuildModel) (stopTime : Int)
    (maxBuilds : Nat) (concurrency : Int) (hc : 0 < concurrency) (b : BuildModel)
    (hb : b ∈ capBuilds builds maxBuilds) (m : String)
    (hfail : b.fetch.podInfo = Outcome.fail m ∨ b.fetch.started = Outcome.fail m ∨
      b.fetch.finished = Outcome.fail m) :
    (∃ e, readResult b.path b.fetch = Except.error e) ∧
    (∃ e, readColumns builds stopTime maxBuilds concurrency = Except.error e) := by
  have h1 := readResult_hard_of_fail b.path b.fetch ⟨m, hfail⟩
  refine ⟨h1, ?_⟩
  obtain ⟨e, he⟩ := readAll_error_of_mem hb (readBuild_error_of_readResult b h1)
  rw [readColumns_pos builds stopTime maxBuilds concurrency hc, he]
  exact ⟨e, rfl⟩

theorem readColumns_hard_error_aborts_witness :
    (∃ e, readResult failingBuild.path failingBuild.fetch = Except.error e) ∧
    (∃ e, readColumns [failingBuild] 0 50 1 = Except.error e) :=
  readColumns_hard_error_aborts [failingBuild] 0 50 1 (by omega) failingBuild
    (by decide) "boom" (by decide)

/-- C1: when every capped build reads and converts successfully, the run
returns the column slice in listing order truncated at the final value of
the shared counter; if no build starts before the stop boundary the whole
capped slice is returned, and otherwise the kept count is the smallest
idx+1 over the builds at or past the boundary, whatever order the
concurrent stop signals are applied in (finalMaxIdx is invariant under
permutations of the discovered indices). -/
theorem readColumns_early_stop (builds : List BuildModel) (stopTime : Int)
    (maxBuilds : Nat) (concurrency : Int) (hc : 0 < concurrency)
    (cols : List Column)
    (hall : readAll (capBuilds builds maxBuilds) = Except.ok cols) :
    readColumns builds stopTime maxBuilds concurrency =
      Except.ok (cols.take (finalMaxIdx cols.length
        (oldIndices cols (Int.fdiv stopTime 1000000000 * 1000)))) ∧
    (oldIndices cols (Int.fdiv stopTime 1000000000 * 1000) = [] →
      readColumns builds stopTime maxBuilds concurrency = Except.ok cols) ∧
    (oldIndices cols (Int.fdiv stopTime 1000000000 * 1000) ≠ [] →
      ∃ i ∈ oldIndices cols (Int.fdiv stopTime 1000000000 * 1000),
        (cols.take (finalMaxIdx cols.length
          (oldIndices cols (Int.fdiv stopTime 1000000000 * 1000)))).length = i + 1 ∧
        ∀ j ∈ oldIndices cols (Int.fdiv stopTime 1000000000 * 1000), i ≤ j) ∧
    (∀ l2 : List Nat, l2.Perm (oldIndices cols (Int.fdiv stopTime 1000000000 * 1000)) →
      finalMaxIdx cols.length l2 =
        finalMaxIdx cols.length (oldIndices cols (Int.fdiv stopTime 1000000000 * 1000))) := by
  have hred : readColumns builds stopTime maxBuilds concurrency =
      Except.ok (cols.take (finalMaxIdx cols.length
        (oldIndices cols (Int.fdiv stopTime 1000000000 * 1000)))) := by
    rw [readColumns_pos builds stopTime maxBuilds concurrency hc, hall]
  have hlt := oldIndices_lt cols (Int.fdiv stopTime 1000000000 * 1000)
  refine ⟨hred, ?_, ?_, ?_⟩
  · intro h0
    rw [hred, h0, finalMaxIdx_nil, List.take_length]
  · intro hne
    obtain ⟨i, hmem, heq, hmin⟩ := finalMaxIdx_mem cols.length _ hne
      (fun i hi => hlt i hi)
    refine ⟨i, hmem, ?_, hmin⟩
    rw [heq, List.length_take]
    have := hlt i hmem
    omega
  · intro l2 hperm
    exact finalMaxIdx_perm _ hperm

theorem readColumns_early_stop_witness :
    readColumns [okBuildOld, okBuildNew] 1000000000 50 1 =
      Except.ok [{ started := 500, hint := "1" }] :=
  ((readColumns_early_stop [okBuildOld, okBuildNew] 1000000000 50 1 (by omega)
      [{ started := 500, hint := "1" }, { started := 2000, hint := "2" }]
      (by decide)).1).trans (by decide)

/-- C7: readSuites caps every decoded suite file at 1000 cases before
appending it to the returned collection: the returned list maps each file
to its first 1000 cases, a file keeps min 1000 of its case count, and a
file of 1500 cases comes back with exactly 1000. -/
theorem readSuites_truncates (files : List SuiteFile) :
    readSuites (SuitesFetch.ok files) =
      Except.ok (files.map (fun s => { cases := s.cases.take 1000 })) ∧
    (∀ s ∈ files, (s.cases.take 1000).length = min 1000 s.cases.length) ∧
    (∀ s ∈ files, s.cases.length = 1500 → (s.cases.take 1000).length = 1000) := by
  refine ⟨rfl, ?_, ?_⟩
  · intro s _
    simp [List.length_take]
  · intro s _ h1500
    simp [List.length_take, h1500]

theorem readResult_suites_gcs_soft_witness :
    ∃ r, readResult "gs://bucket/b/1/" crossPathFetch = Except.ok r ∧
      trimPfx "gs://other/obj" "gs://bucket/b/1/" ∈ r.malformed :=
  (readResult_suites_gcs_soft "gs://bucket/b/1/" crossPathFetch
      (fun _ h => Outcome.noConfusion h) (fun _ h => Outcome.noConfusion h)
      (fun _ h => Outcome.noConfusion h)).1
    { msg := "list: boom", gcsPath := some "gs://other/obj" } "gs://other/obj"
    (by decide) rfl

theorem readResult_absent_started_soft_witness :
    ∃ r, readResult "gs://bucket/job/1" absentStartedFetch = Except.ok r ∧
      "started.json" ∈ r.malformed ∧ r.finished = some "f" ∧
      r.suites = [({ cases := ["case1"] } : SuiteFile)].map
        (fun s => { cases := s.cases.take 1000 }) :=
  (readResult_absent_started_soft "gs://bucket/job/1" (Outcome.ok "p") "f"
      [{ cases := ["case1"] }] (fun _ h => Outcome.noConfusion h)).1

theorem makeNameConfig_multi_job_witness :
    (makeNameConfig groupPlainParts).multiJob = true ∧
    jobName ∈ (makeNameConfig groupPlainParts).parts ∧
    (jobName ∉ (convertNameConfig groupPlainParts.testNameConfig).parts →
      (makeNameConfig groupPlainParts).parts =
        jobName :: (convertNameConfig groupPlainParts.testNameConfig).parts ∧
      (makeNameConfig groupPlainParts).format =
        "%s." ++ (convertNameConfig groupPlainParts.testNameConfig).format) ∧
    (jobName ∈ (convertNameConfig groupPlainParts.testNameConfig).parts →
      (makeNameConfig groupPlainParts).parts =
        (convertNameConfig groupPlainParts.testNameConfig).parts ∧
      (makeNameConfig groupPlainParts).format =
        (convertNameConfig groupPlainParts.testNameConfig).format) :=
  makeNameConfig_multi_job groupPlainParts (by decide)

end Updater
